import Mathlib

/-!
Verification of the bspline_interpolation_c driver and transform layer.

The development embeds, over exact rational arithmetic, the functions of
src/bspline_main.c (argument handling: read_ext, fix_precision,
parse_geometry, main) and src/splinter_transform.c (splinter_homography,
splinter_homography_geom).  The spline core (splinter_plan, splinter,
splinter_destroy_plan) and the homography utilities (apply_homography,
invert_homography) live in files of the repository that are not part of
the provided sources; the spline core is kept abstract as a per-channel
evaluation function together with a trace of plan lifecycle events, and
the homography utilities are modelled from the specification.
-/

/-- Embedding of the C test 0 == strncmp(g, name, strlen(g)) used throughout
bspline_main.c: it is true exactly when g is an initial segment of name
(the comparison stops after strlen(g) characters; a g longer than name
reaches the terminating null of name and the comparison fails). -/
def strncmpZ : List Char → List Char → Bool
  | [], _ => true
  | _ :: _, [] => false
  | a :: as, b :: bs => a == b && strncmpZ as bs

/-- Name string tested first by read_ext. -/
def bConstant : List Char := "constant".toList

/-- Name string tested second by read_ext. -/
def bPeriodic : List Char := "periodic".toList

/-- Name string tested third by read_ext. -/
def bHsymmetric : List Char := "hsymmetric".toList

/-- Name string tested fourth by read_ext. -/
def bWsymmetric : List Char := "wsymmetric".toList

/-- Geometry keyword tested first by parse_geometry. -/
def gCenter : List Char := "center".toList

/-- Geometry keyword tested second by parse_geometry. -/
def gAuto : List Char := "auto".toList

/-- Default boundary argument of main (bspline_main.c line 177). -/
def bHsymDefault : List Char := "hsym".toList

/-- Boundary extension variants of the splinter library. -/
inductive BoundaryExt where
  | constant
  | periodic
  | hsymmetric
  | wsymmetric
deriving DecidableEq

/-- Embedding of read_ext (bspline_main.c lines 134-152).  The C function
returns the boundary kind and may overwrite the in/out parameter larger;
the call exit(EXIT_FAILURE) on an unrecognized name is rendered as none. -/
def read_ext (boundary : List Char) (larger : ℤ) : Option (BoundaryExt × ℤ) :=
  if strncmpZ boundary bConstant then
    some (BoundaryExt.constant, if larger = 0 then 1 else larger)
  else if strncmpZ boundary bPeriodic then
    some (BoundaryExt.periodic, larger)
  else if strncmpZ boundary bHsymmetric then
    some (BoundaryExt.hsymmetric, larger)
  else if strncmpZ boundary bWsymmetric then
    some (BoundaryExt.wsymmetric, larger)
  else
    none

/-- A boundary argument is recognized when it is an initial segment of one of
the four names tested by read_ext. -/
def validBoundary (boundary : List Char) : Bool :=
  strncmpZ boundary bConstant || strncmpZ boundary bPeriodic ||
  strncmpZ boundary bHsymmetric || strncmpZ boundary bWsymmetric

theorem read_ext_none_iff (b : List Char) (l : ℤ) :
    read_ext b l = none ↔ validBoundary b = false := by
  unfold read_ext validBoundary
  cases h1 : strncmpZ b bConstant <;>
    cases h2 : strncmpZ b bPeriodic <;>
      cases h3 : strncmpZ b bHsymmetric <;>
        cases h4 : strncmpZ b bWsymmetric <;> simp

/-- Embedding of the loop of fix_precision (bspline_main.c lines 157-159):
tmp starts at 1 and is multiplied by 0.1 while the counter i stays below
eps. -/
def fix_precision_loop (eps : ℚ) (i : ℕ) (tmp : ℚ) : ℚ :=
  if (i : ℚ) < eps then fix_precision_loop eps (i + 1) (tmp * 0.1) else tmp
termination_by ⌈eps⌉.toNat - i
decreasing_by
  rename_i h
  have hi : (i : ℤ) < ⌈eps⌉ := Int.lt_ceil.mpr (by exact_mod_cast h)
  omega

/-- Embedding of fix_precision (bspline_main.c lines 155-163). -/
def fix_precision (eps : ℚ) : ℚ :=
  if eps ≥ 1 then fix_precision_loop eps 0 1 else eps

theorem fix_precision_loop_eq (eps : ℚ) (i : ℕ) (tmp : ℚ) :
    fix_precision_loop eps i tmp = tmp * (0.1 : ℚ) ^ (⌈eps⌉.toNat - i) := by
  induction i, tmp using fix_precision_loop.induct eps with
  | case1 i tmp h ih =>
    rw [fix_precision_loop, if_pos h, ih]
    have hi : (i : ℤ) < ⌈eps⌉ := Int.lt_ceil.mpr (by exact_mod_cast h)
    have hsub : ⌈eps⌉.toNat - i = (⌈eps⌉.toNat - (i + 1)) + 1 := by omega
    rw [hsub, pow_succ]
    ring
  | case2 i tmp h =>
    rw [fix_precision_loop, if_neg h]
    have hle : eps ≤ (i : ℚ) := le_of_not_lt h
    have hc : ⌈eps⌉ ≤ (i : ℤ) := Int.ceil_le.mpr (by exact_mod_cast hle)
    have : ⌈eps⌉.toNat - i = 0 := by omega
    rw [this, pow_zero, mul_one]

theorem fix_precision_ge_one (eps : ℚ) (h : 1 ≤ eps) :
    fix_precision eps = (0.1 : ℚ) ^ ⌈eps⌉.toNat := by
  rw [fix_precision, if_pos h, fix_precision_loop_eq]
  simp

theorem fix_precision_lt_one (eps : ℚ) (h : eps < 1) :
    fix_precision eps = eps := by
  rw [fix_precision, if_neg (not_le.mpr h)]

/-- Modelled from the spec: apply_homography from homography_tools (an
external collaborator of the core, not among the provided sources) applies
a 3x3 projective transform, given row-major as 9 coefficients, to a 2-D
point: the point is lifted to homogeneous coordinates, multiplied by the
matrix and dehomogenized. -/
def apply_homography (H : Fin 9 → ℚ) (p : ℚ × ℚ) : ℚ × ℚ :=
  let z := H 6 * p.1 + H 7 * p.2 + H 8
  ((H 0 * p.1 + H 1 * p.2 + H 2) / z, (H 3 * p.1 + H 4 * p.2 + H 5) / z)

/-- Modelled from the spec: invert_homography from homography_tools (an
external collaborator, not among the provided sources) inverts the 3x3
matrix; since a homography is determined up to scale, the adjugate matrix
represents the inverse transform. -/
def invert_homography (H : Fin 9 → ℚ) : Fin 9 → ℚ :=
  fun i =>
    match i with
    | 0 => H 4 * H 8 - H 5 * H 7
    | 1 => H 2 * H 7 - H 1 * H 8
    | 2 => H 1 * H 5 - H 2 * H 4
    | 3 => H 5 * H 6 - H 3 * H 8
    | 4 => H 0 * H 8 - H 2 * H 6
    | 5 => H 2 * H 3 - H 0 * H 5
    | 6 => H 3 * H 7 - H 4 * H 6
    | 7 => H 1 * H 6 - H 0 * H 7
    | 8 => H 0 * H 4 - H 1 * H 3

/-- In/out parameters x, y, w, h of parse_geometry. -/
structure GeomSt where
  x : ℚ
  y : ℚ
  w : ℤ
  h : ℤ
deriving DecidableEq

/-- Result of the libc call sscanf(g, "%dx%d%lg%lg", w, h, x, y) in
parse_geometry, modelled abstractly: n is the number of items assigned
(at most 4) and w, h, x, y are the values scanned; a value is meaningful
only when its position is below n.  sscanf belongs to the C standard
library, outside this repository. -/
structure ScanGeom where
  n : ℕ
  w : ℤ
  h : ℤ
  x : ℚ
  y : ℚ
deriving DecidableEq

/-- Embedding of one step of the bounding-box loop of parse_geometry
(bspline_main.c lines 114-119): the pair p carries (bb[s], bb[s+2]) and v
is the coordinate hc[2*i+s] under examination. -/
def bbStep (v : ℚ) (p : ℚ × ℚ) : ℚ × ℚ :=
  if v < p.1 then (v, p.2) else if p.2 < v then (p.1, v) else p

/-- Embedding of the inner bounding-box loop of parse_geometry for one fixed
component s: the coordinates of corners 1, 2, 3 are folded over the pair
(bb[s], bb[s+2]) initialized from corner 0. -/
def bbPass (l : List ℚ) (p : ℚ × ℚ) : ℚ × ℚ :=
  l.foldl (fun p v => bbStep v p) p

/-- Embedding of the corner generation of parse_geometry (bspline_main.c
line 110): corner i is ((i&1)*w, ((i&2)>>1)*h). -/
def corner (w h : ℤ) (i : ℕ) : ℚ × ℚ :=
  (((i % 2 : ℕ) : ℚ) * (w : ℚ), ((i / 2 % 2 : ℕ) : ℚ) * (h : ℚ))

/-- Embedding of parse_geometry (bspline_main.c lines 99-131).  The return
value 1 (failure) is rendered as none, 0 (success) as some of the updated
in/out parameters. -/
def parse_geometry (st : GeomSt) (H : Fin 9 → ℚ) (g : List Char)
    (scan : ScanGeom) : Option GeomSt :=
  if strncmpZ g gCenter then
    let c : ℚ × ℚ := (st.x + (st.w : ℚ) / 2, st.y + (st.h : ℚ) / 2)
    let hc := apply_homography H c
    some ⟨hc.1 - (st.w : ℚ) / 2, hc.2 - (st.h : ℚ) / 2, st.w, st.h⟩
  else if strncmpZ g gAuto then
    let hc : ℕ → ℚ × ℚ := fun i => apply_homography H (corner st.w st.h i)
    let bx := bbPass [(hc 1).1, (hc 2).1, (hc 3).1] ((hc 0).1, (hc 0).1)
    let bby := bbPass [(hc 1).2, (hc 2).2, (hc 3).2] ((hc 0).2, (hc 0).2)
    some ⟨bx.1, bby.1, ⌈bx.2 - bx.1⌉, ⌈bby.2 - bby.1⌉⟩
  else
    if ¬(scan.n = 2 ∨ scan.n = 4) then none
    else if scan.w ≤ 0 ∨ scan.h ≤ 0 then none
    else some ⟨if scan.n = 4 then scan.x else 0,
               if scan.n = 4 then scan.y else 0, scan.w, scan.h⟩

/-- Call made by main into the splinter transform layer, with the arguments
that the driver computed (the image buffer and file names are external). -/
inductive SplinterCall where
  | geomCall (x0 y0 : ℚ) (wout hout : ℤ) (order : ℤ) (ext : BoundaryExt)
      (eps : ℚ) (larger : ℤ)
  | plainCall (order : ℤ) (ext : BoundaryExt) (eps : ℚ) (larger : ℤ)
deriving DecidableEq

/-- Order argument carried by a SplinterCall. -/
def SplinterCall.order : SplinterCall → ℤ
  | .geomCall _ _ _ _ o _ _ _ => o
  | .plainCall o _ _ _ => o

/-- Boundary extension carried by a SplinterCall. -/
def SplinterCall.ext : SplinterCall → BoundaryExt
  | .geomCall _ _ _ _ _ e _ _ => e
  | .plainCall _ e _ _ => e

/-- Larger flag carried by a SplinterCall. -/
def SplinterCall.larger : SplinterCall → ℤ
  | .geomCall _ _ _ _ _ _ _ l => l
  | .plainCall _ _ _ l => l

/-- Observable outcome of main: the exit status and the call into the
splinter transform layer, when one is reached. -/
structure MainOut where
  exit : ℕ
  call : Option SplinterCall
deriving DecidableEq

/-- Command-line arguments of main after the external libc conversions:
order is the atoi image of argv[4], boundary the string argv[5], eps the
atof image of argv[6], larger the atoi image of argv[7], geom the string
argv[8], nparams the count returned by parse_doubles on argv[1] (at most
its nmax argument 9), homo the nine scanned coefficients, w and h the
dimensions of the decoded input image, and geomScan the abstract sscanf
outcome on the geometry string.  Each field is consulted by main only
when argc makes the corresponding argument present. -/
structure Argv where
  order : ℤ
  boundary : List Char
  eps : ℚ
  larger : ℤ
  geom : List Char
  nparams : ℕ
  homo : Fin 9 → ℚ
  w : ℤ
  h : ℤ
  geomScan : ScanGeom

/-- Embedding of main (bspline_main.c lines 166-226).  MAXO stands for the
library constant MAX_ORDER (defined in the splinter headers, outside the
provided sources).  The returns with EXIT_FAILURE, and the
exit(EXIT_FAILURE) inside read_ext, are exit status 1; the final return
EXIT_SUCCESS is status 0 together with the splinter call performed.  The
name mainC stands for the C function main, which Lean reserves. -/
def mainC (MAXO : ℤ) (argc : ℕ) (A : Argv) : MainOut :=
  if ¬(4 ≤ argc ∧ argc ≤ 9) then ⟨1, none⟩
  else
    let order : ℤ := if 4 < argc then A.order else 11
    let boundary : List Char := if 5 < argc then A.boundary else bHsymDefault
    let eps0 : ℚ := if 6 < argc then A.eps else 6
    let larger0 : ℤ := if 7 < argc then A.larger else 0
    if MAXO < order then ⟨1, none⟩
    else
      let eps := fix_precision eps0
      match read_ext boundary larger0 with
      | none => ⟨1, none⟩
      | some (ext, larger) =>
        if A.nparams ≠ 9 then ⟨1, none⟩
        else
          if 8 < argc then
            match parse_geometry ⟨0, 0, A.w, A.h⟩ A.homo A.geom A.geomScan with
            | none => ⟨1, none⟩
            | some g =>
              ⟨0, some (.geomCall g.x g.y g.w g.h order ext eps larger)⟩
          else ⟨0, some (.plainCall order ext eps larger)⟩

/-- Plan lifecycle events of the splinter library observed during a run of
the transform layer: plan construction, one interpolation query at a
continuous coordinate, and plan destruction. -/
inductive SplinterEvent where
  | buildPlan
  | evalAt (x y : ℚ)
  | destroyPlan
deriving DecidableEq

/-- Running state of splinter_homography_geom: the output buffer (a store
indexed by offsets from the out pointer as passed in), the pixel offset of
the moving pointer out (incremented once per output pixel by ++out), and
the list of plan lifecycle events performed so far. -/
structure RunState where
  store : ℕ → ℚ
  ptr : ℕ
  trace : List SplinterEvent

/-- Applies a list of writes (address, value) to a store in order. -/
def applyW (l : List (ℕ × ℚ)) (s : ℕ → ℚ) : ℕ → ℚ :=
  l.foldl (fun s p => Function.update s p.1 p.2) s

/-- Writes performed by the channel loop of splinter_homography_geom
(splinter_transform.c lines 62-63) for one pixel: channel k goes to
out[k*wout*hout], that is to absolute offset k*wout*hout + base where base
is the current pixel offset of out; F q1 q2 k stands for entry k of the
buffer outp filled by the call splinter(outp, q[0], q[1], plan). -/
def pixWrites (F : ℚ → ℚ → ℕ → ℚ) (wout hout c : ℕ) (q : ℚ × ℚ)
    (base : ℕ) : List (ℕ × ℚ) :=
  (List.range c).map fun k => (k * (wout * hout) + base, F q.1 q.2 k)

/-- Embedding of the body of the inner loop over i of
splinter_homography_geom (splinter_transform.c lines 58-64): the query
point is p = (i+x0, j+y0), mapped through the inverted homography to q,
interpolated once by splinter, written to all channels, and the out
pointer advances by one. -/
def pixStep (F : ℚ → ℚ → ℕ → ℚ) (iH : Fin 9 → ℚ) (x0 y0 : ℚ)
    (wout hout c : ℕ) (j : ℕ) (st : RunState) (i : ℕ) : RunState :=
  let q := apply_homography iH ((i : ℚ) + x0, (j : ℚ) + y0)
  { store := applyW (pixWrites F wout hout c q st.ptr) st.store
    ptr := st.ptr + 1
    trace := st.trace ++ [SplinterEvent.evalAt q.1 q.2] }

/-- Embedding of one iteration of the outer loop over j of
splinter_homography_geom (splinter_transform.c lines 56-65). -/
def rowStep (F : ℚ → ℚ → ℕ → ℚ) (iH : Fin 9 → ℚ) (x0 y0 : ℚ)
    (wout hout c : ℕ) (st : RunState) (j : ℕ) : RunState :=
  (List.range wout).foldl (pixStep F iH x0 y0 wout hout c j) st

/-- Embedding of splinter_homography_geom (splinter_transform.c lines
41-70).  The spline core is abstract: F q1 q2 k is the value that the
evaluator splinter produces for channel k of the plan built from the input
image at query point (q1, q2); building and destroying the plan and each
splinter call are recorded in the trace.  out0 is the initial content of
the output buffer. -/
def splinter_homography_geom (F : ℚ → ℚ → ℕ → ℚ) (x0 y0 : ℚ)
    (wout hout c : ℕ) (H : Fin 9 → ℚ) (out0 : ℕ → ℚ) : RunState :=
  let iH := invert_homography H
  let st := (List.range hout).foldl (rowStep F iH x0 y0 wout hout c)
    { store := out0, ptr := 0, trace := [SplinterEvent.buildPlan] }
  { st with trace := st.trace ++ [SplinterEvent.destroyPlan] }

/-- Embedding of splinter_homography (splinter_transform.c lines 30-37): it
forwards to splinter_homography_geom with a zero offset and the input
image dimensions as output dimensions. -/
def splinter_homography (F : ℚ → ℚ → ℕ → ℚ) (w h c : ℕ) (H : Fin 9 → ℚ)
    (out0 : ℕ → ℚ) : RunState :=
  splinter_homography_geom F 0 0 w h c H out0

theorem applyW_append (l1 l2 : List (ℕ × ℚ)) (s : ℕ → ℚ) :
    applyW (l1 ++ l2) s = applyW l2 (applyW l1 s) := by
  unfold applyW
  rw [List.foldl_append]

/-- Query point of splinter_homography_geom for output pixel (i, j): the
point (i+x0, j+y0) mapped through the inverted homography. -/
def qAt (iH : Fin 9 → ℚ) (x0 y0 : ℚ) (i j : ℕ) : ℚ × ℚ :=
  apply_homography iH ((i : ℚ) + x0, (j : ℚ) + y0)

/-- Writes performed by a run of the inner loop over the pixel indices in l
of row j, when the out pointer starts at offset base. -/
def rowWrites (F : ℚ → ℚ → ℕ → ℚ) (iH : Fin 9 → ℚ) (x0 y0 : ℚ)
    (wout hout c : ℕ) (j : ℕ) : List ℕ → ℕ → List (ℕ × ℚ)
  | [], _ => []
  | i :: is, base =>
    pixWrites F wout hout c (qAt iH x0 y0 i j) base ++
      rowWrites F iH x0 y0 wout hout c j is (base + 1)

/-- Writes performed by a run of the outer loop over the row indices in js,
when the out pointer starts at offset base. -/
def gridWrites (F : ℚ → ℚ → ℕ → ℚ) (iH : Fin 9 → ℚ) (x0 y0 : ℚ)
    (wout hout c : ℕ) : List ℕ → ℕ → List (ℕ × ℚ)
  | [], _ => []
  | j :: js, base =>
    rowWrites F iH x0 y0 wout hout c j (List.range wout) base ++
      gridWrites F iH x0 y0 wout hout c js (base + wout)

theorem foldl_pixStep (F : ℚ → ℚ → ℕ → ℚ) (iH : Fin 9 → ℚ) (x0 y0 : ℚ)
    (wout hout c : ℕ) (j : ℕ) (l : List ℕ) (st : RunState) :
    l.foldl (pixStep F iH x0 y0 wout hout c j) st =
      { store := applyW (rowWrites F iH x0 y0 wout hout c j l st.ptr) st.store
        ptr := st.ptr + l.length
        trace := st.trace ++ l.map fun i =>
          SplinterEvent.evalAt (qAt iH x0 y0 i j).1 (qAt iH x0 y0 i j).2 } := by
  induction l generalizing st with
  | nil => simp [rowWrites, applyW]
  | cons i is ih =>
    rw [List.foldl_cons, ih]
    simp only [pixStep, rowWrites, RunState.mk.injEq, List.length_cons]
    refine ⟨(applyW_append _ _ _).symm, by omega, ?_⟩
    simp [qAt, List.append_assoc]

theorem foldl_rowStep (F : ℚ → ℚ → ℕ → ℚ) (iH : Fin 9 → ℚ) (x0 y0 : ℚ)
    (wout hout c : ℕ) (js : List ℕ) (st : RunState) :
    js.foldl (rowStep F iH x0 y0 wout hout c) st =
      { store := applyW (gridWrites F iH x0 y0 wout hout c js st.ptr) st.store
        ptr := st.ptr + js.length * wout
        trace := st.trace ++ js.flatMap fun j => (List.range wout).map fun i =>
          SplinterEvent.evalAt (qAt iH x0 y0 i j).1 (qAt iH x0 y0 i j).2 } := by
  induction js generalizing st with
  | nil => simp [gridWrites, applyW]
  | cons j js ih =>
    rw [List.foldl_cons, rowStep, foldl_pixStep, ih]
    simp only [gridWrites, RunState.mk.injEq, List.length_range, List.length_cons]
    refine ⟨(applyW_append _ _ _).symm, by ring, ?_⟩
    simp [List.append_assoc]

theorem geom_run_eq (F : ℚ → ℚ → ℕ → ℚ) (x0 y0 : ℚ) (wout hout c : ℕ)
    (H : Fin 9 → ℚ) (out0 : ℕ → ℚ) :
    splinter_homography_geom F x0 y0 wout hout c H out0 =
      { store := applyW (gridWrites F (invert_homography H) x0 y0 wout hout c
          (List.range hout) 0) out0
        ptr := hout * wout
        trace := SplinterEvent.buildPlan ::
          ((List.range hout).flatMap fun j => (List.range wout).map fun i =>
            SplinterEvent.evalAt (qAt (invert_homography H) x0 y0 i j).1
              (qAt (invert_homography H) x0 y0 i j).2) ++
          [SplinterEvent.destroyPlan] } := by
  simp [splinter_homography_geom, foldl_rowStep]

theorem applyW_cons (p : ℕ × ℚ) (l : List (ℕ × ℚ)) (s : ℕ → ℚ) :
    applyW (p :: l) s = applyW l (Function.update s p.1 p.2) := rfl

theorem applyW_notmem (l : List (ℕ × ℚ)) (s : ℕ → ℚ) (a : ℕ)
    (h : ∀ p ∈ l, p.1 ≠ a) : applyW l s a = s a := by
  induction l generalizing s with
  | nil => rfl
  | cons p l ih =>
    rw [applyW_cons, ih _ fun q hq => h q (List.mem_cons_of_mem _ hq)]
    exact Function.update_noteq (fun he => h p (List.mem_cons_self p l) he.symm) _ _

theorem applyW_mem_unique (l : List (ℕ × ℚ)) (s : ℕ → ℚ) (a : ℕ) (v : ℚ)
    (hmem : (a, v) ∈ l) (huniq : ∀ p ∈ l, p.1 = a → p.2 = v) :
    applyW l s a = v := by
  induction l generalizing s with
  | nil => cases hmem
  | cons p l ih =>
    rw [applyW_cons]
    by_cases hl : (a, v) ∈ l
    · exact ih _ hl fun q hq hqa => huniq q (List.mem_cons_of_mem _ hq) hqa
    · have hp : p = (a, v) := by
        rcases List.mem_cons.mp hmem with h | h
        · exact h.symm
        · exact absurd h hl
      subst hp
      rw [applyW_notmem]
      · exact Function.update_same _ _ _
      · intro q hq hqa
        have hqv : q.2 = v := huniq q (List.mem_cons_of_mem _ hq) hqa
        exact hl (by rw [← hqa, ← hqv] at *; exact hq)

theorem pair_decompose (B k1 k2 r1 r2 : ℕ) (h1 : r1 < B) (h2 : r2 < B)
    (he : k1 * B + r1 = k2 * B + r2) : k1 = k2 ∧ r1 = r2 := by
  have hB : 0 < B := by omega
  have hd1 : (k1 * B + r1) / B = k1 := by
    rw [Nat.add_comm, Nat.add_mul_div_right _ _ hB, Nat.div_eq_of_lt h1,
      Nat.zero_add]
  have hd2 : (k2 * B + r2) / B = k2 := by
    rw [Nat.add_comm, Nat.add_mul_div_right _ _ hB, Nat.div_eq_of_lt h2,
      Nat.zero_add]
  have hm1 : (k1 * B + r1) % B = r1 := by
    rw [Nat.add_comm, Nat.add_mul_mod_self_right, Nat.mod_eq_of_lt h1]
  have hm2 : (k2 * B + r2) % B = r2 := by
    rw [Nat.add_comm, Nat.add_mul_mod_self_right, Nat.mod_eq_of_lt h2]
  constructor
  · rw [← hd1, ← hd2, he]
  · rw [← hm1, ← hm2, he]

theorem idx_bound (w h m n : ℕ) (hn : n < w) (hm : m < h) :
    m * w + n < w * h := by
  calc m * w + n < (m + 1) * w := by
        rw [Nat.succ_mul]
        omega
    _ ≤ h * w := Nat.mul_le_mul_right w hm
    _ = w * h := Nat.mul_comm h w

theorem rowWrites_char (F : ℚ → ℚ → ℕ → ℚ) (iH : Fin 9 → ℚ) (x0 y0 : ℚ)
    (wout hout c : ℕ) (j : ℕ) (l : List ℕ) (base : ℕ) (p : ℕ × ℚ)
    (hp : p ∈ rowWrites F iH x0 y0 wout hout c j l base) :
    ∃ n, ∃ hn : n < l.length, ∃ k, k < c ∧
      p = (k * (wout * hout) + (base + n),
        F (qAt iH x0 y0 (l.get ⟨n, hn⟩) j).1
          (qAt iH x0 y0 (l.get ⟨n, hn⟩) j).2 k) := by
  induction l generalizing base with
  | nil => cases hp
  | cons i is ih =>
    rcases List.mem_append.mp hp with h | h
    · rcases List.mem_map.mp h with ⟨k, hk, hpk⟩
      refine ⟨0, by simp, k, List.mem_range.mp hk, ?_⟩
      simpa using hpk.symm
    · rcases ih (base + 1) h with ⟨n, hn, k, hk, hpk⟩
      refine ⟨n + 1, by simpa using hn, k, hk, ?_⟩
      simpa [Nat.add_assoc, Nat.add_comm 1 n] using hpk

theorem rowWrites_mem (F : ℚ → ℚ → ℕ → ℚ) (iH : Fin 9 → ℚ) (x0 y0 : ℚ)
    (wout hout c : ℕ) (j : ℕ) (l : List ℕ) (base n : ℕ) (hn : n < l.length)
    (k : ℕ) (hk : k < c) :
    (k * (wout * hout) + (base + n),
      F (qAt iH x0 y0 (l.get ⟨n, hn⟩) j).1
        (qAt iH x0 y0 (l.get ⟨n, hn⟩) j).2 k)
      ∈ rowWrites F iH x0 y0 wout hout c j l base := by
  induction l generalizing base n with
  | nil => cases hn
  | cons i is ih =>
    cases n with
    | zero =>
      apply List.mem_append_left
      apply List.mem_map.mpr
      exact ⟨k, List.mem_range.mpr hk, by simp⟩
    | succ n =>
      apply List.mem_append_right
      have := ih (base + 1) n (by simpa using hn)
      simpa [Nat.add_assoc, Nat.add_comm 1 n] using this

theorem gridWrites_char (F : ℚ → ℚ → ℕ → ℚ) (iH : Fin 9 → ℚ) (x0 y0 : ℚ)
    (wout hout c : ℕ) (js : List ℕ) (base : ℕ) (p : ℕ × ℚ)
    (hp : p ∈ gridWrites F iH x0 y0 wout hout c js base) :
    ∃ m, ∃ hm : m < js.length, ∃ n, n < wout ∧ ∃ k, k < c ∧
      p = (k * (wout * hout) + (base + (m * wout + n)),
        F (qAt iH x0 y0 n (js.get ⟨m, hm⟩)).1
          (qAt iH x0 y0 n (js.get ⟨m, hm⟩)).2 k) := by
  induction js generalizing base with
  | nil => cases hp
  | cons j js ih =>
    rcases List.mem_append.mp hp with h | h
    · rcases rowWrites_char F iH x0 y0 wout hout c j (List.range wout) base p h
        with ⟨n, hn, k, hk, hpk⟩
      refine ⟨0, by simp, n, by simpa using hn, k, hk, ?_⟩
      simpa [List.getElem_range] using hpk
    · rcases ih (base + wout) h with ⟨m, hm, n, hn, k, hk, hpk⟩
      refine ⟨m + 1, by simpa using hm, n, hn, k, hk, ?_⟩
      have harith : base + wout + (m * wout + n) =
          base + ((m + 1) * wout + n) := by
        rw [Nat.succ_mul]
        omega
      simpa [harith] using hpk

theorem gridWrites_mem (F : ℚ → ℚ → ℕ → ℚ) (iH : Fin 9 → ℚ) (x0 y0 : ℚ)
    (wout hout c : ℕ) (js : List ℕ) (base m : ℕ) (hm : m < js.length)
    (n : ℕ) (hn : n < wout) (k : ℕ) (hk : k < c) :
    (k * (wout * hout) + (base + (m * wout + n)),
      F (qAt iH x0 y0 n (js.get ⟨m, hm⟩)).1
        (qAt iH x0 y0 n (js.get ⟨m, hm⟩)).2 k)
      ∈ gridWrites F iH x0 y0 wout hout c js base := by
  induction js generalizing base m with
  | nil => cases hm
  | cons j js ih =>
    cases m with
    | zero =>
      apply List.mem_append_left
      have := rowWrites_mem F iH x0 y0 wout hout c j (List.range wout) base n
        (by simpa using hn) k hk
      simpa [List.getElem_range] using this
    | succ m =>
      apply List.mem_append_right
      have := ih (base + wout) m (by simpa using hm)
      have harith : base + wout + (m * wout + n) =
          base + ((m + 1) * wout + n) := by
        rw [Nat.succ_mul]
        omega
      simpa [harith] using this

theorem bbStep_minmax (v lo hi : ℚ) (h : lo ≤ hi) :
    bbStep v (lo, hi) = (min lo v, max hi v) := by
  unfold bbStep
  rcases lt_trichotomy v lo with hv | hv | hv
  · rw [if_pos hv]
    rw [min_eq_right hv.le, max_eq_left (hv.le.trans h)]
  · subst hv
    rw [if_neg (lt_irrefl v), if_neg (not_lt.mpr h)]
    rw [min_self, max_eq_left h]
  · rw [if_neg (not_lt.mpr hv.le)]
    by_cases hh : hi < v
    · rw [if_pos hh]
      rw [min_eq_left hv.le, max_eq_right hh.le]
    · rw [if_neg hh]
      rw [min_eq_left hv.le, max_eq_left (not_lt.mp hh)]

theorem bbPass_minmax (l : List ℚ) (lo hi : ℚ) (h : lo ≤ hi) :
    bbPass l (lo, hi) = (l.foldl min lo, l.foldl max hi) := by
  induction l generalizing lo hi with
  | nil => rfl
  | cons v l ih =>
    have hstep : bbStep v (lo, hi) = (min lo v, max hi v) := bbStep_minmax v lo hi h
    have hle : min lo v ≤ max hi v :=
      le_trans (min_le_left lo v) (le_trans h (le_max_left hi v))
    unfold bbPass at *
    rw [List.foldl_cons, hstep, List.foldl_cons, List.foldl_cons, ih _ _ hle]

/-- Claim C1: splinter_homography_geom builds exactly one Plan, evaluates it
exactly once per output pixel (i, j), 0 ≤ i < wout, 0 ≤ j < hout, at the
point (i + x0, j + y0) mapped through the inverse of the homography H, and
finally destroys the Plan exactly once: its event trace is one plan
construction, followed by the evaluation queries in row-major pixel order,
followed by one plan destruction. -/
theorem C1_plan_lifecycle (F : ℚ → ℚ → ℕ → ℚ) (x0 y0 : ℚ) (wout hout c : ℕ)
    (H : Fin 9 → ℚ) (out0 : ℕ → ℚ) :
    (splinter_homography_geom F x0 y0 wout hout c H out0).trace =
      SplinterEvent.buildPlan ::
        ((List.range hout).flatMap fun (j : ℕ) =>
          (List.range wout).map fun (i : ℕ) =>
          SplinterEvent.evalAt
            (apply_homography (invert_homography H)
              ((i : ℚ) + x0, (j : ℚ) + y0)).1
            (apply_homography (invert_homography H)
              ((i : ℚ) + x0, (j : ℚ) + y0)).2) ++
        [SplinterEvent.destroyPlan] ∧
    (splinter_homography_geom F x0 y0 wout hout c H out0).trace.count
      SplinterEvent.buildPlan = 1 ∧
    (splinter_homography_geom F x0 y0 wout hout c H out0).trace.count
      SplinterEvent.destroyPlan = 1 := by
  have h := geom_run_eq F x0 y0 wout hout c H out0
  rw [h]
  have hnb : ∀ e ∈ (List.range hout).flatMap fun j =>
      (List.range wout).map fun i =>
        SplinterEvent.evalAt (qAt (invert_homography H) x0 y0 i j).1
          (qAt (invert_homography H) x0 y0 i j).2,
      e ≠ SplinterEvent.buildPlan ∧ e ≠ SplinterEvent.destroyPlan := by
    intro e he
    rcases List.mem_flatMap.mp he with ⟨j, _, hj⟩
    rcases List.mem_map.mp hj with ⟨i, _, hEq⟩
    rw [← hEq]
    exact ⟨fun hc => SplinterEvent.noConfusion hc,
      fun hc => SplinterEvent.noConfusion hc⟩
  refine ⟨rfl, ?_, ?_⟩
  · simp [List.count_append, List.count_cons,
      List.count_eq_zero.mpr fun hm => (hnb _ hm).1 rfl]
  · simp [List.count_append, List.count_cons,
      List.count_eq_zero.mpr fun hm => (hnb _ hm).2 rfl]

/-- Claim C8: splinter_homography is splinter_homography_geom specialized to
a zero offset and the input image dimensions as output dimensions, so both
entry points produce the same output buffer (and the same event trace). -/
theorem C8_plain_is_geom_specialized (F : ℚ → ℚ → ℕ → ℚ) (w h c : ℕ)
    (H : Fin 9 → ℚ) (out0 : ℕ → ℚ) :
    splinter_homography F w h c H out0 =
      splinter_homography_geom F 0 0 w h c H out0 ∧
    ∀ m : ℕ, (splinter_homography F w h c H out0).store m =
      (splinter_homography_geom F 0 0 w h c H out0).store m :=
  ⟨rfl, fun _ => rfl⟩

/-- Claim C9: splinter_homography_geom stores its result in planar layout;
for every output pixel (i, j) and channel k, the value interpolated at the
inverse image of (i + x0, j + y0) for channel k lands at buffer offset
k*wout*hout + j*wout + i. -/
theorem C9_planar_layout (F : ℚ → ℚ → ℕ → ℚ) (x0 y0 : ℚ) (wout hout c : ℕ)
    (H : Fin 9 → ℚ) (out0 : ℕ → ℚ) (i j k : ℕ)
    (hi : i < wout) (hj : j < hout) (hk : k < c) :
    (splinter_homography_geom F x0 y0 wout hout c H out0).store
        (k * (wout * hout) + (j * wout + i)) =
      F (apply_homography (invert_homography H) ((i : ℚ) + x0, (j : ℚ) + y0)).1
        (apply_homography (invert_homography H) ((i : ℚ) + x0, (j : ℚ) + y0)).2
        k := by
  rw [geom_run_eq]
  show applyW _ out0 _ = _
  apply applyW_mem_unique
  · have := gridWrites_mem F (invert_homography H) x0 y0 wout hout c
      (List.range hout) 0 j (by simpa using hj) i hi k hk
    simpa [List.getElem_range, qAt] using this
  · intro p hp hpa
    rcases gridWrites_char F (invert_homography H) x0 y0 wout hout c
      (List.range hout) 0 p hp with ⟨m, hm, n, hn, k2, hk2, hpk⟩
    have hmh : m < hout := by simpa using hm
    subst hpk
    simp only [List.getElem_range] at *
    have haddr : k2 * (wout * hout) + (m * wout + n) =
        k * (wout * hout) + (j * wout + i) := by simpa using hpa
    have h1 := pair_decompose (wout * hout) k2 k (m * wout + n) (j * wout + i)
      (idx_bound wout hout m n hn hmh) (idx_bound wout hout j i hi hj) haddr
    have h2 := pair_decompose wout m j n i hn hi h1.2
    rcases h1 with ⟨hk2k, _⟩
    rcases h2 with ⟨hmj, hni⟩
    subst hk2k; subst hmj; subst hni
    simp [qAt]

theorem read_ext_cases (b : List Char) (l : ℤ) (e : BoundaryExt) (l' : ℤ)
    (h : read_ext b l = some (e, l')) :
    (e = BoundaryExt.constant ∧ strncmpZ b bConstant = true ∧
      l' = if l = 0 then 1 else l) ∨
    (e = BoundaryExt.periodic ∧ strncmpZ b bPeriodic = true ∧ l' = l) ∨
    (e = BoundaryExt.hsymmetric ∧ strncmpZ b bHsymmetric = true ∧ l' = l) ∨
    (e = BoundaryExt.wsymmetric ∧ strncmpZ b bWsymmetric = true ∧ l' = l) := by
  unfold read_ext at h
  by_cases h1 : strncmpZ b bConstant = true
  · rw [if_pos h1] at h
    simp only [Option.some.injEq, Prod.mk.injEq] at h
    exact Or.inl ⟨h.1.symm, h1, h.2.symm⟩
  · rw [if_neg h1] at h
    by_cases h2 : strncmpZ b bPeriodic = true
    · rw [if_pos h2] at h
      simp only [Option.some.injEq, Prod.mk.injEq] at h
      exact Or.inr (Or.inl ⟨h.1.symm, h2, h.2.symm⟩)
    · rw [if_neg h2] at h
      by_cases h3 : strncmpZ b bHsymmetric = true
      · rw [if_pos h3] at h
        simp only [Option.some.injEq, Prod.mk.injEq] at h
        exact Or.inr (Or.inr (Or.inl ⟨h.1.symm, h3, h.2.symm⟩))
      · rw [if_neg h3] at h
        by_cases h4 : strncmpZ b bWsymmetric = true
        · rw [if_pos h4] at h
          simp only [Option.some.injEq, Prod.mk.injEq] at h
          exact Or.inr (Or.inr (Or.inr ⟨h.1.symm, h4, h.2.symm⟩))
        · rw [if_neg h4] at h
          cases h

theorem mainC_call_inv (MAXO : ℤ) (argc : ℕ) (A : Argv) (cal : SplinterCall)
    (h : (mainC MAXO argc A).call = some cal) :
    ∃ l' : ℤ, read_ext (if 5 < argc then A.boundary else bHsymDefault)
        (if 7 < argc then A.larger else 0) = some (cal.ext, l') ∧
      cal.larger = l' ∧ cal.order = (if 4 < argc then A.order else 11) ∧
      cal.order ≤ MAXO := by
  by_cases hargc : ¬(4 ≤ argc ∧ argc ≤ 9)
  · simp [mainC, hargc] at h
  · by_cases hord : MAXO < (if 4 < argc then A.order else 11)
    · simp [mainC, hargc, hord] at h
    · rcases hre : read_ext (if 5 < argc then A.boundary else bHsymDefault)
          (if 7 < argc then A.larger else 0) with _ | ⟨ext, larger⟩
      · simp [mainC, hargc, hord, hre] at h
      · by_cases hnp : A.nparams ≠ 9
        · simp [mainC, hargc, hord, hre, hnp] at h
        · by_cases hg : 8 < argc
          · rcases hpg : parse_geometry ⟨0, 0, A.w, A.h⟩ A.homo A.geom
                A.geomScan with _ | g
            · simp [mainC, hargc, hord, hre, hnp, hg, hpg] at h
            · simp only [mainC, hargc, hord, hre, hnp, hg, hpg, if_neg,
                if_pos, if_true, if_false, ite_true, ite_false,
                Option.some.injEq] at h
              subst h
              exact ⟨larger, rfl, rfl, rfl, not_lt.mp hord⟩
          · simp only [mainC, hargc, hord, hre, hnp, hg, if_neg, if_pos,
              if_true, if_false, ite_true, ite_false,
              Option.some.injEq] at h
            subst h
            exact ⟨larger, rfl, rfl, rfl, not_lt.mp hord⟩

theorem mainC_success_inv (MAXO : ℤ) (argc : ℕ) (A : Argv)
    (h : (mainC MAXO argc A).exit = 0) :
    (4 ≤ argc ∧ argc ≤ 9) ∧
    (if 4 < argc then A.order else 11) ≤ MAXO ∧
    validBoundary (if 5 < argc then A.boundary else bHsymDefault) = true ∧
    A.nparams = 9 ∧
    (8 < argc →
      parse_geometry ⟨0, 0, A.w, A.h⟩ A.homo A.geom A.geomScan ≠ none) := by
  by_cases hargc : ¬(4 ≤ argc ∧ argc ≤ 9)
  · simp [mainC, hargc] at h
  · by_cases hord : MAXO < (if 4 < argc then A.order else 11)
    · simp [mainC, hargc, hord] at h
    · rcases hre : read_ext (if 5 < argc then A.boundary else bHsymDefault)
          (if 7 < argc then A.larger else 0) with _ | ⟨ext, larger⟩
      · simp [mainC, hargc, hord, hre] at h
      · have hvb : validBoundary
            (if 5 < argc then A.boundary else bHsymDefault) = true := by
          by_contra hq
          have hn := (read_ext_none_iff (if 5 < argc then A.boundary
            else bHsymDefault) (if 7 < argc then A.larger else 0)).mpr
            (by simpa using hq)
          rw [hn] at hre
          cases hre
        by_cases hnp : A.nparams ≠ 9
        · simp [mainC, hargc, hord, hre, hnp] at h
        · by_cases hg : 8 < argc
          · rcases hpg : parse_geometry ⟨0, 0, A.w, A.h⟩ A.homo A.geom
                A.geomScan with _ | g
            · simp [mainC, hargc, hord, hre, hnp, hg, hpg] at h
            · exact ⟨not_not.mp hargc, not_lt.mp hord, hvb, not_not.mp hnp,
                fun _ => by simp⟩
          · exact ⟨not_not.mp hargc, not_lt.mp hord, hvb, not_not.mp hnp,
              fun hgg => absurd hgg hg⟩

theorem parse_geometry_malformed (st : GeomSt) (H : Fin 9 → ℚ) (g : List Char)
    (scan : ScanGeom) (h1 : strncmpZ g gCenter = false)
    (h2 : strncmpZ g gAuto = false)
    (h3 : ¬(scan.n = 2 ∨ scan.n = 4) ∨ scan.w ≤ 0 ∨ scan.h ≤ 0) :
    parse_geometry st H g scan = none := by
  unfold parse_geometry
  rw [if_neg (by simp [h1]), if_neg (by simp [h2])]
  split_ifs with hA hB <;> first | rfl | tauto

/-- Claim C2: each of the four invalid-argument conditions, namely a given
boundary argument recognized by none of the four names, a given order
argument exceeding MAX_ORDER, a given geometry argument that matches
neither keyword nor the wxh / wxh+x0+y0 forms or has non-positive w or h,
and a homography argument that does not parse to exactly 9 numbers, makes
main terminate with a non-zero exit status. -/
theorem C2_invalid_args_nonzero_exit (MAXO : ℤ) (argc : ℕ) (A : Argv) :
    (5 < argc → validBoundary A.boundary = false →
      (mainC MAXO argc A).exit ≠ 0) ∧
    (4 < argc → MAXO < A.order → (mainC MAXO argc A).exit ≠ 0) ∧
    (8 < argc → strncmpZ A.geom gCenter = false →
      strncmpZ A.geom gAuto = false →
      (¬(A.geomScan.n = 2 ∨ A.geomScan.n = 4) ∨ A.geomScan.w ≤ 0 ∨
        A.geomScan.h ≤ 0) →
      (mainC MAXO argc A).exit ≠ 0) ∧
    (A.nparams ≠ 9 → (mainC MAXO argc A).exit ≠ 0) := by
  refine ⟨?_, ?_, ?_, ?_⟩
  · intro h5 hvb h0
    have hi := (mainC_success_inv MAXO argc A h0).2.2.1
    rw [if_pos h5] at hi
    rw [hvb] at hi
    cases hi
  · intro h4 hord h0
    have hi := (mainC_success_inv MAXO argc A h0).2.1
    rw [if_pos h4] at hi
    exact absurd hi (not_le.mpr hord)
  · intro h8 hc ha hm h0
    exact (mainC_success_inv MAXO argc A h0).2.2.2.2 h8
      (parse_geometry_malformed _ _ _ _ hc ha hm)
  · intro hnp h0
    exact hnp (mainC_success_inv MAXO argc A h0).2.2.2.1

/-- Concrete command line whose boundary argument matches no boundary name. -/
def argvBadBoundary : Argv :=
  { order := 3, boundary := ['z'], eps := 2, larger := 0, geom := [],
    nparams := 9, homo := fun _ => 0, w := 1, h := 1,
    geomScan := ⟨0, 0, 0, 0, 0⟩ }

theorem C2_witness :
    validBoundary (['z'] : List Char) = false ∧
    (mainC 16 6 argvBadBoundary).exit ≠ 0 :=
  ⟨by decide, (C2_invalid_args_nonzero_exit 16 6 argvBadBoundary).1
    (by decide) (by decide)⟩

/-- Claim C7 (amended): every invocation of main that reaches Plan
construction passes an order at most MAX_ORDER; the lower bound 0 is not
enforced, so negative orders reach the core (see the counterexample). -/
theorem C7_order_at_most_max (MAXO : ℤ) (argc : ℕ) (A : Argv)
    (cal : SplinterCall) (h : (mainC MAXO argc A).call = some cal) :
    cal.order ≤ MAXO := by
  rcases mainC_call_inv MAXO argc A cal h with ⟨l', _, _, _, hle⟩
  exact hle

/-- Concrete command line with order argument -1 (and otherwise default
parameters), parsed by atoi to the integer -1. -/
def argvNegOrder : Argv :=
  { order := -1, boundary := [], eps := 6, larger := 0, geom := [],
    nparams := 9, homo := fun _ => 0, w := 1, h := 1,
    geomScan := ⟨0, 0, 0, 0, 0⟩ }

theorem C7_counterexample :
    (mainC 16 5 argvNegOrder).call =
      some (SplinterCall.plainCall (-1) BoundaryExt.hsymmetric
        (fix_precision 6) 0) ∧
    (SplinterCall.plainCall (-1) BoundaryExt.hsymmetric
      (fix_precision 6) 0).order < 0 :=
  ⟨rfl, by decide⟩

theorem C7_witness :
    (mainC 16 5 argvNegOrder).call =
      some (SplinterCall.plainCall (-1) BoundaryExt.hsymmetric
        (fix_precision 6) 0) ∧
    (SplinterCall.plainCall (-1) BoundaryExt.hsymmetric
      (fix_precision 6) 0).order ≤ 16 :=
  ⟨rfl, C7_order_at_most_max 16 5 argvNegOrder _ rfl⟩

/-- Claim C4: when read_ext resolves the boundary argument to the Constant
extension it forces a larger flag of 0 to 1, so the larger value returned
is never 0 and Plan construction with the Constant boundary always has
domain enlargement enabled; for the three other kinds the flag is
returned unchanged. -/
theorem C4_constant_forces_enlargement :
    (∀ (b : List Char) (l l' : ℤ),
      read_ext b l = some (BoundaryExt.constant, l') →
      l' ≠ 0 ∧ (l = 0 → l' = 1) ∧ (l ≠ 0 → l' = l)) ∧
    (∀ (b : List Char) (l : ℤ) (e : BoundaryExt) (l' : ℤ),
      read_ext b l = some (e, l') → e ≠ BoundaryExt.constant → l' = l) ∧
    (∀ (MAXO : ℤ) (argc : ℕ) (A : Argv) (cal : SplinterCall),
      (mainC MAXO argc A).call = some cal →
      cal.ext = BoundaryExt.constant → cal.larger ≠ 0) := by
  have hconst : ∀ (b : List Char) (l l' : ℤ),
      read_ext b l = some (BoundaryExt.constant, l') →
      l' ≠ 0 ∧ (l = 0 → l' = 1) ∧ (l ≠ 0 → l' = l) := by
    intro b l l' h
    rcases read_ext_cases b l _ l' h with h' | h' | h' | h'
    · rcases h' with ⟨_, _, hl⟩
      by_cases hl0 : l = 0
      · rw [if_pos hl0] at hl
        subst hl
        exact ⟨one_ne_zero, fun _ => rfl, fun hn => absurd hl0 hn⟩
      · rw [if_neg hl0] at hl
        subst hl
        exact ⟨hl0, fun hz => absurd hz hl0, fun _ => rfl⟩
    · exact absurd h'.1 (by decide)
    · exact absurd h'.1 (by decide)
    · exact absurd h'.1 (by decide)
  refine ⟨hconst, ?_, ?_⟩
  · intro b l e l' h hne
    rcases read_ext_cases b l e l' h with h' | h' | h' | h'
    · exact absurd h'.1 hne
    · exact h'.2.2
    · exact h'.2.2
    · exact h'.2.2
  · intro MAXO argc A cal hcall hext
    rcases mainC_call_inv MAXO argc A cal hcall with ⟨l', hre, hlar, _, _⟩
    rw [hext] at hre
    rcases hconst _ _ _ hre with ⟨hne, _, _⟩
    rw [hlar]
    exact hne

theorem C4_witness :
    read_ext bConstant 0 = some (BoundaryExt.constant, 1) ∧ (1 : ℤ) ≠ 0 :=
  ⟨by decide, (C4_constant_forces_enlargement.1 bConstant 0 1 (by decide)).1⟩

/-- Claim C10: read_ext matches the boundary argument as an initial segment
of the names constant, periodic, hsymmetric, wsymmetric tested in that
order and returns the first match; it fails exactly when the argument
matches none of the four names, and the empty string resolves to the
Constant extension, forcing a larger flag of 0 to 1. -/
theorem C10_boundary_name_matching :
    (∀ (b : List Char) (l : ℤ),
      read_ext b l = none ↔ validBoundary b = false) ∧
    (∀ (b : List Char) (l : ℤ), strncmpZ b bConstant = true →
      read_ext b l = some (BoundaryExt.constant, if l = 0 then 1 else l)) ∧
    (∀ (b : List Char) (l : ℤ), strncmpZ b bConstant = false →
      strncmpZ b bPeriodic = true →
      read_ext b l = some (BoundaryExt.periodic, l)) ∧
    (∀ (b : List Char) (l : ℤ), strncmpZ b bConstant = false →
      strncmpZ b bPeriodic = false → strncmpZ b bHsymmetric = true →
      read_ext b l = some (BoundaryExt.hsymmetric, l)) ∧
    (∀ (b : List Char) (l : ℤ), strncmpZ b bConstant = false →
      strncmpZ b bPeriodic = false → strncmpZ b bHsymmetric = false →
      strncmpZ b bWsymmetric = true →
      read_ext b l = some (BoundaryExt.wsymmetric, l)) ∧
    (∀ l : ℤ, read_ext [] l =
      some (BoundaryExt.constant, if l = 0 then 1 else l)) := by
  refine ⟨read_ext_none_iff, ?_, ?_, ?_, ?_, ?_⟩
  · intro b l h1
    simp [read_ext, h1]
  · intro b l h1 h2
    simp [read_ext, h1, h2]
  · intro b l h1 h2 h3
    simp [read_ext, h1, h2, h3]
  · intro b l h1 h2 h3 h4
    simp [read_ext, h1, h2, h3, h4]
  · intro l
    simp [read_ext, strncmpZ]

theorem C10_witness :
    read_ext ['c'] 5 =
      some (BoundaryExt.constant, if (5 : ℤ) = 0 then 1 else 5) ∧
    read_ext ['h'] 0 = some (BoundaryExt.hsymmetric, 0) :=
  ⟨C10_boundary_name_matching.2.1 ['c'] 5 (by decide),
   C10_boundary_name_matching.2.2.2.1 ['h'] 0 (by decide) (by decide)
     (by decide)⟩

/-- Componentwise minimum of four values, used to state claim C5. -/
def min4 (a b c d : ℚ) : ℚ := min (min (min a b) c) d

/-- Componentwise maximum of four values, used to state claim C5. -/
def max4 (a b c d : ℚ) : ℚ := max (max (max a b) c) d

/-- Claim C5: with the "auto" geometry (any initial segment of "auto" that
is not one of "center"), parse_geometry succeeds, puts the output offset
at the componentwise minimum of the homography images of the corners
(0,0), (w,0), (0,h), (w,h), and sets the output size to the ceilings of
the extents of those images. -/
theorem C5_auto_geometry (st : GeomSt) (H : Fin 9 → ℚ) (g : List Char)
    (scan : ScanGeom) (hcen : strncmpZ g gCenter = false)
    (haut : strncmpZ g gAuto = true) :
    parse_geometry st H g scan = some
      { x := min4 (apply_homography H (0, 0)).1
          (apply_homography H ((st.w : ℚ), 0)).1
          (apply_homography H (0, (st.h : ℚ))).1
          (apply_homography H ((st.w : ℚ), (st.h : ℚ))).1
        y := min4 (apply_homography H (0, 0)).2
          (apply_homography H ((st.w : ℚ), 0)).2
          (apply_homography H (0, (st.h : ℚ))).2
          (apply_homography H ((st.w : ℚ), (st.h : ℚ))).2
        w := ⌈max4 (apply_homography H (0, 0)).1
            (apply_homography H ((st.w : ℚ), 0)).1
            (apply_homography H (0, (st.h : ℚ))).1
            (apply_homography H ((st.w : ℚ), (st.h : ℚ))).1 -
          min4 (apply_homography H (0, 0)).1
            (apply_homography H ((st.w : ℚ), 0)).1
            (apply_homography H (0, (st.h : ℚ))).1
            (apply_homography H ((st.w : ℚ), (st.h : ℚ))).1⌉
        h := ⌈max4 (apply_homography H (0, 0)).2
            (apply_homography H ((st.w : ℚ), 0)).2
            (apply_homography H (0, (st.h : ℚ))).2
            (apply_homography H ((st.w : ℚ), (st.h : ℚ))).2 -
          min4 (apply_homography H (0, 0)).2
            (apply_homography H ((st.w : ℚ), 0)).2
            (apply_homography H (0, (st.h : ℚ))).2
            (apply_homography H ((st.w : ℚ), (st.h : ℚ))).2⌉ } := by
  unfold parse_geometry
  rw [if_neg (by simp [hcen]), if_pos haut]
  have hc0 : corner st.w st.h 0 = (0, 0) := by
    simp [corner]
  have hc1 : corner st.w st.h 1 = ((st.w : ℚ), 0) := by
    simp [corner]
  have hc2 : corner st.w st.h 2 = (0, (st.h : ℚ)) := by
    simp [corner]
  have hc3 : corner st.w st.h 3 = ((st.w : ℚ), (st.h : ℚ)) := by
    norm_num [corner]
  simp only [hc0, hc1, hc2, hc3]
  rw [bbPass_minmax _ _ _ le_rfl, bbPass_minmax _ _ _ le_rfl]
  simp [min4, max4]

/-- Identity homography, used as a concrete instance in witnesses. -/
def Hid : Fin 9 → ℚ := fun i => if i = 0 ∨ i = 4 ∨ i = 8 then 1 else 0

theorem C5_witness :
    strncmpZ gAuto gCenter = false ∧ strncmpZ gAuto gAuto = true ∧
    parse_geometry ⟨0, 0, 0, 0⟩ Hid gAuto ⟨0, 0, 0, 0, 0⟩ =
      some ⟨0, 0, 0, 0⟩ := by
  refine ⟨by decide, by decide, ?_⟩
  rw [C5_auto_geometry ⟨0, 0, 0, 0⟩ Hid gAuto ⟨0, 0, 0, 0, 0⟩ (by decide)
    (by decide)]
  have e0 : Hid 0 = 1 := rfl
  have e1 : Hid 1 = 0 := rfl
  have e2 : Hid 2 = 0 := rfl
  have e6 : Hid 6 = 0 := rfl
  have e7 : Hid 7 = 0 := rfl
  have e8 : Hid 8 = 1 := rfl
  have e3 : Hid 3 = 0 := rfl
  have e4 : Hid 4 = 1 := rfl
  have e5 : Hid 5 = 0 := rfl
  norm_num [min4, max4, apply_homography, e0, e1, e2, e3, e4, e5, e6, e7, e8]

/-- Claim C6: with the "center" geometry (any initial segment of "center"),
parse_geometry succeeds, keeps w and h unchanged, and shifts the offset so
that the center of the output window is the homography image of the
center of the input window. -/
theorem C6_center_geometry (st : GeomSt) (H : Fin 9 → ℚ) (g : List Char)
    (scan : ScanGeom) (hcen : strncmpZ g gCenter = true) :
    ∃ r : GeomSt, parse_geometry st H g scan = some r ∧ r.w = st.w ∧
      r.h = st.h ∧
      (r.x + (st.w : ℚ) / 2, r.y + (st.h : ℚ) / 2) =
        apply_homography H (st.x + (st.w : ℚ) / 2, st.y + (st.h : ℚ) / 2) := by
  refine ⟨⟨(apply_homography H
        (st.x + (st.w : ℚ) / 2, st.y + (st.h : ℚ) / 2)).1 - (st.w : ℚ) / 2,
      (apply_homography H
        (st.x + (st.w : ℚ) / 2, st.y + (st.h : ℚ) / 2)).2 - (st.h : ℚ) / 2,
      st.w, st.h⟩, ?_, rfl, rfl, ?_⟩
  · simp [parse_geometry, hcen]
  · rw [sub_add_cancel, sub_add_cancel]

theorem C6_witness :
    strncmpZ gCenter gCenter = true ∧
    ∃ r : GeomSt, parse_geometry ⟨0, 0, 2, 2⟩ Hid gCenter ⟨0, 0, 0, 0, 0⟩ =
        some r ∧ r.w = 2 ∧ r.h = 2 ∧
      (r.x + ((2 : ℤ) : ℚ) / 2, r.y + ((2 : ℤ) : ℚ) / 2) =
        apply_homography Hid (0 + ((2 : ℤ) : ℚ) / 2, 0 + ((2 : ℤ) : ℚ) / 2) :=
  ⟨by decide,
   C6_center_geometry ⟨0, 0, 2, 2⟩ Hid gCenter ⟨0, 0, 0, 0, 0⟩ (by decide)⟩

/-- Claim C3 (amended): when eps is at least 1, fix_precision returns the
value of the loop, 0.1 raised to the number of iterations, which is the
ceiling of eps, so the result is 10 to the minus the ceiling of eps; this
equals 10^(-eps) exactly when eps is an integer (third conjunct); when
eps is below 1 it is returned unchanged. -/
theorem C3_fix_precision (eps : ℚ) :
    (1 ≤ eps → fix_precision eps = (0.1 : ℚ) ^ ⌈eps⌉.toNat) ∧
    (eps < 1 → fix_precision eps = eps) ∧
    (∀ n : ℕ, 1 ≤ n → fix_precision (n : ℚ) = (0.1 : ℚ) ^ n) := by
  refine ⟨fix_precision_ge_one eps, fix_precision_lt_one eps, ?_⟩
  intro n hn
  rw [fix_precision_ge_one _ (by exact_mod_cast hn)]
  congr 1
  rw [Int.ceil_natCast]
  simp

theorem C3_witness :
    (1 : ℚ) ≤ 2 ∧ fix_precision 2 = (0.1 : ℚ) ^ (⌈(2 : ℚ)⌉.toNat) :=
  ⟨by norm_num, (C3_fix_precision 2).1 (by norm_num)⟩

theorem C3_counterexample :
    fix_precision (3 / 2 : ℚ) = 1 / 100 ∧
    ¬(((fix_precision (3 / 2 : ℚ) : ℚ) : ℝ) = (10 : ℝ) ^ (-(3 / 2) : ℝ)) := by
  have hceil : ⌈(3 / 2 : ℚ)⌉ = 2 := by
    apply le_antisymm
    · exact Int.ceil_le.mpr (by norm_num)
    · exact Int.le_ceil_iff.mpr (by norm_num)
  have h1 : fix_precision (3 / 2 : ℚ) = 1 / 100 := by
    rw [fix_precision_ge_one _ (by norm_num), hceil,
      show (2 : ℤ).toNat = 2 from rfl]
    norm_num
  refine ⟨h1, ?_⟩
  rw [h1]
  intro hcontra
  have hsq := congrArg (fun x : ℝ => x ^ (2 : ℕ)) hcontra
  simp only at hsq
  have hL : (((1 / 100 : ℚ) : ℝ)) ^ (2 : ℕ) = 1 / 10000 := by norm_num
  have hR : ((10 : ℝ) ^ (-(3 / 2) : ℝ)) ^ (2 : ℕ) = 1 / 1000 := by
    rw [← Real.rpow_natCast ((10 : ℝ) ^ (-(3 / 2) : ℝ)) 2,
      ← Real.rpow_mul (by norm_num : (0 : ℝ) ≤ 10),
      show (-(3 / 2) * ((2 : ℕ) : ℝ) : ℝ) = ((-3 : ℤ) : ℝ) by push_cast; ring,
      Real.rpow_intCast]
    norm_num
  rw [hL, hR] at hsq
  norm_num at hsq

theorem C9_witness :
    (0 : ℕ) < 1 ∧
    (splinter_homography_geom (fun _ _ _ => (7 : ℚ)) 0 0 1 1 1 Hid
      (fun _ => 0)).store (0 * (1 * 1) + (0 * 1 + 0)) = 7 :=
  ⟨Nat.zero_lt_one, C9_planar_layout (fun _ _ _ => (7 : ℚ)) 0 0 1 1 1 Hid
    (fun _ => 0) 0 0 0 Nat.zero_lt_one Nat.zero_lt_one Nat.zero_lt_one⟩
